import Mathlib

/-!
Shallow embedding of the budget-constrained selection engine of
src/task_6_greedy_dp_food.py: the ratio-greedy selector (greedy_algorithm)
and the exact 0/1-knapsack selector (dynamic_programming).

Modelling notes, justified against the source:

* A Python dict of items (name -> {"cost", "calories"}) is modelled as a
  `List Item` in insertion order.  Dict keys are unique, so looking up
  `food_items[names[i]]` always yields the i-th entry; the embedding
  therefore accesses items positionally where the source looks up by name
  (lines 114-115, 130, 134-135 of the source).
* `cost` and `calories` are Python ints, modelled as `Int` (negative and
  zero values are representable, as the source never validates them).
* The source's greedy ratio `calories / cost` is a Python float obtained
  by dividing two ints with `cost > 0` (the `cost <= 0` guard at line 54).
  Float rounding of `a / c` is monotone in the exact rational value and
  equal rationals give equal floats, so ratio comparisons are modelled
  exactly by cross-multiplication over `Int` (`ratioGE`).  No property
  proved below depends on the rounding of near-equal ratios.
* Python's `list.sort(key=..., reverse=True)` is a stable descending sort:
  its output is uniquely determined (descending by key, ties in input
  order), so it is modelled by a stable insertion sort with the same
  observable behaviour (`sortByRatio`).
* `greedy_algorithm` accumulates `total_cost` / `total_calories` by adding
  each chosen item's fields (lines 70-71), which equals the sum over the
  chosen list; the embedding returns those sums directly.
* `dynamic_programming` keeps a dp array of length `budget + 1` and a
  `keep` matrix whose row i is a function of the dp state after items
  0..i-1 only (the inner loop at lines 118-121 runs w downward, so every
  read `dp[w - cost]` with `cost >= 0` sees the pre-item value).  The
  embedding represents each dp row as a function `Nat -> Int`; it agrees
  with the Python array on every index `w <= budget` because all reads at
  such w are at indices `<= w`.
* Failure model: the source never checks `budget < 0`.  For a negative
  budget the dp and keep rows are allocated with length
  `max (budget+1) 0 = 0`, the forward loops are empty, and the
  reconstruction (line 127) reads `keep[i][budget]` on an empty row,
  raising IndexError whenever the catalog is nonempty.  With a
  non-negative budget, an item of negative cost makes the first forward
  iteration (w = budget) read `dp[budget - cost]` past the end of the
  array, also an IndexError.  In all remaining cases every index is in
  range.  `dynamic_programming` below returns `Except PyErr SelectionResult`
  with these two IndexError cases made explicit as guards.
-/

structure Item where
  name : String
  cost : Int
  calories : Int
deriving DecidableEq

structure SelectionResult where
  items : List String
  total_cost : Int
  total_calories : Int
deriving DecidableEq

def costSum (s : List Item) : Int := (s.map Item.cost).sum

def calSum (s : List Item) : Int := (s.map Item.calories).sum

/-- Costs as natural numbers (used by the dp indexing, where all costs are
non-negative because negative costs raise IndexError before dp is read). -/
def ncostSum (s : List Item) : Nat := (s.map (fun it => it.cost.toNat)).sum

/-- Source lines 50-58: the scored list keeps exactly the items with
positive cost, in insertion order. -/
def scoredOf (l : List Item) : List Item :=
  l.filter (fun it => decide (0 < it.cost))

/-- Ratio comparison: calories x / cost x >= calories y / cost y, written
without division (both costs are positive on the scored list). -/
def ratioGE (x y : Item) : Bool :=
  decide (y.calories * x.cost ≤ x.calories * y.cost)

/-- Stable insertion into a descending-by-ratio list: an element coming
earlier in the input is placed before every element of equal ratio. -/
def insort (x : Item) : List Item → List Item
  | [] => [x]
  | y :: ys => if ratioGE x y then x :: y :: ys else y :: insort x ys

/-- Source line 61: stable sort by ratio, descending. -/
def sortByRatio : List Item → List Item
  | [] => []
  | x :: xs => insort x (sortByRatio xs)

/-- Source lines 67-71: the greedy packing pass over the sorted list,
carrying the running total cost. -/
def walk (budget : Int) : List Item → Int → List Item
  | [], _ => []
  | it :: rest, tc =>
    if tc + it.cost ≤ budget then it :: walk budget rest (tc + it.cost)
    else walk budget rest tc

/-- Source lines 33-73. -/
def greedy_algorithm (l : List Item) (budget : Int) : SelectionResult :=
  ⟨(walk budget (sortByRatio (scoredOf l)) 0).map Item.name,
   costSum (walk budget (sortByRatio (scoredOf l)) 0),
   calSum (walk budget (sortByRatio (scoredOf l)) 0)⟩

/-- One forward dp pass for a single item (source lines 118-121): the
functional reading of the in-place downward loop. -/
def dpStep (it : Item) (dp : Nat → Int) : Nat → Int := fun w =>
  if it.cost.toNat ≤ w ∧ dp w < dp (w - it.cost.toNat) + it.calories then
    dp (w - it.cost.toNat) + it.calories
  else dp w

/-- dp state after processing a list of items starting from a given row. -/
def dpFrom (dp : Nat → Int) (l : List Item) : Nat → Int :=
  l.foldl (fun d it => dpStep it d) dp

/-- dp state after processing the items from the all-zero row. -/
def dpAfter (l : List Item) : Nat → Int := dpFrom (fun _ => 0) l

/-- Source lines 124-131: backward reconstruction.  The argument is the
reversed catalog, so the head is the last item (index n-1); the keep test
for item i is its dpStep condition over the dp state of the preceding
items, exactly as keep[i][w] was recorded in the forward pass. -/
def reconRev : List Item → Nat → List Item
  | [], _ => []
  | it :: rest, w =>
    if it.cost.toNat ≤ w ∧
        dpAfter rest.reverse w <
          dpAfter rest.reverse (w - it.cost.toNat) + it.calories then
      it :: reconRev rest (w - it.cost.toNat)
    else reconRev rest w

/-- The chosen items, back in insertion order (source line 132 reverses the
backward-collected list). -/
def dpChosen (l : List Item) (B : Nat) : List Item :=
  (reconRev l.reverse B).reverse

/-- The dp selector's result on the error-free domain (source lines
132-137): names of the chosen items and their recomputed totals. -/
def dpRun (l : List Item) (B : Nat) : SelectionResult :=
  ⟨(dpChosen l B).map Item.name, costSum (dpChosen l B), calSum (dpChosen l B)⟩

inductive PyErr where
  | indexError
deriving DecidableEq

/-- Source lines 82-137, with the two IndexError cases of the header note
made explicit: a negative-cost item under a non-negative budget overruns
the dp row in the forward pass, and a negative budget gives keep rows of
length 0 that the reconstruction reads for a nonempty catalog. -/
def dynamic_programming (l : List Item) (budget : Int) :
    Except PyErr SelectionResult :=
  if 0 ≤ budget ∧ l.any (fun it => decide (it.cost < 0)) then
    Except.error PyErr.indexError
  else if budget < 0 ∧ l ≠ [] then
    Except.error PyErr.indexError
  else
    Except.ok (dpRun l budget.toNat)

/-- Modelled from the spec (section 8, C1's oracle): the best achievable
benefit over all subsets of the catalog whose cost sum is within budget,
each item taken at most once.  Subsets of the item sequence are its
sublists. -/
def bestBenefit (l : List Item) (budget : Int) : Int :=
  ((l.sublists.filter (fun s => decide (costSum s ≤ budget))).map calSum).foldl
    max 0

open List

@[simp] lemma costSum_nil : costSum [] = 0 := rfl

@[simp] lemma costSum_cons (a : Item) (s : List Item) :
    costSum (a :: s) = a.cost + costSum s := by simp [costSum]

@[simp] lemma calSum_nil : calSum [] = 0 := rfl

@[simp] lemma calSum_cons (a : Item) (s : List Item) :
    calSum (a :: s) = a.calories + calSum s := by simp [calSum]

@[simp] lemma ncostSum_nil : ncostSum [] = 0 := rfl

@[simp] lemma ncostSum_cons (a : Item) (s : List Item) :
    ncostSum (a :: s) = a.cost.toNat + ncostSum s := by simp [ncostSum]

lemma costSum_reverse (s : List Item) : costSum s.reverse = costSum s := by
  simp [costSum, List.sum_reverse]

lemma calSum_reverse (s : List Item) : calSum s.reverse = calSum s := by
  simp [calSum, List.sum_reverse]

lemma ncostSum_reverse (s : List Item) : ncostSum s.reverse = ncostSum s := by
  simp [ncostSum, List.sum_reverse]

lemma costSum_perm {s t : List Item} (h : s.Perm t) : costSum s = costSum t :=
  (h.map Item.cost).sum_eq

lemma calSum_perm {s t : List Item} (h : s.Perm t) : calSum s = calSum t :=
  (h.map Item.calories).sum_eq

lemma ncostSum_cast {s : List Item} (h : ∀ it ∈ s, 0 ≤ it.cost) :
    (ncostSum s : Int) = costSum s := by
  induction s with
  | nil => rfl
  | cons a s ih =>
    have ha : 0 ≤ a.cost := h a (List.mem_cons_self a s)
    have hs := ih (fun it hit => h it (List.mem_cons_of_mem a hit))
    simp only [ncostSum_cons, costSum_cons, Nat.cast_add, hs,
      Int.toNat_of_nonneg ha]

lemma costSum_nonneg {s : List Item} (h : ∀ it ∈ s, 0 ≤ it.cost) :
    0 ≤ costSum s :=
  List.sum_nonneg (by
    intro x hx
    obtain ⟨it, hit, rfl⟩ := List.mem_map.mp hx
    exact h it hit)

lemma insort_perm (x : Item) (t : List Item) : (insort x t).Perm (x :: t) := by
  induction t with
  | nil => simp [insort]
  | cons y ys ih =>
    by_cases h : ratioGE x y
    · simp [insort, h]
    · simp only [insort, h, if_false, Bool.false_eq_true]
      exact (ih.cons y).trans (List.Perm.swap x y ys)

lemma sortByRatio_perm (t : List Item) : (sortByRatio t).Perm t := by
  induction t with
  | nil => simp [sortByRatio]
  | cons x xs ih =>
    exact (insort_perm x (sortByRatio xs)).trans (ih.cons x)

lemma sublist_insort (x : Item) (t : List Item) : t <+ insort x t := by
  induction t with
  | nil => simp [insort]
  | cons y ys ih =>
    by_cases h : ratioGE x y
    · simp only [insort, h, if_true]
      exact List.sublist_cons_self x (y :: ys)
    · simp only [insort, h, if_false, Bool.false_eq_true]
      exact ih.cons₂ y

lemma insort_tie {x y : Item} {t : List Item} (hy : y ∈ t)
    (hge : ratioGE x y = true) : [x, y] <+ insort x t := by
  induction t with
  | nil => cases hy
  | cons z zs ih =>
    by_cases h : ratioGE x z
    · simp only [insort, h, if_true]
      exact (List.singleton_sublist.mpr hy).cons₂ x
    · simp only [insort, h, if_false, Bool.false_eq_true]
      rcases List.mem_cons.mp hy with rfl | hy₂
      · exact absurd hge h
      · exact (ih hy₂).cons z

lemma sortByRatio_stable {x y : Item} {t : List Item} (hsub : [x, y] <+ t)
    (hge : ratioGE x y = true) : [x, y] <+ sortByRatio t := by
  induction t with
  | nil => cases hsub
  | cons z zs ih =>
    cases hsub with
    | cons _ h => exact (ih h).trans (sublist_insort z (sortByRatio zs))
    | cons₂ _ h =>
      have hy : y ∈ sortByRatio zs :=
        (sortByRatio_perm zs).mem_iff.mpr (List.singleton_sublist.mp h)
      exact insort_tie hy hge

lemma walk_sublist (budget : Int) (t : List Item) (tc : Int) :
    walk budget t tc <+ t := by
  induction t generalizing tc with
  | nil => simp [walk]
  | cons it rest ih =>
    by_cases h : tc + it.cost ≤ budget
    · simp only [walk, if_pos h]
      exact (ih (tc + it.cost)).cons₂ it
    · simp only [walk, if_neg h]
      exact (ih tc).cons it

lemma walk_cost_le (budget : Int) :
    ∀ (t : List Item) (tc : Int), tc ≤ budget →
      tc + costSum (walk budget t tc) ≤ budget := by
  intro t
  induction t with
  | nil => intro tc h; simpa [walk] using h
  | cons it rest ih =>
    intro tc h
    by_cases hc : tc + it.cost ≤ budget
    · have := ih (tc + it.cost) hc
      simp only [walk, if_pos hc, costSum_cons]
      omega
    · simpa [walk, if_neg hc] using ih tc h

lemma walk_all (budget : Int) :
    ∀ (t : List Item) (tc : Int), (∀ it ∈ t, 0 ≤ it.cost) →
      tc + costSum t ≤ budget → walk budget t tc = t := by
  intro t
  induction t with
  | nil => intro tc _ _; simp [walk]
  | cons it rest ih =>
    intro tc hc h
    have hrest : 0 ≤ costSum rest :=
      costSum_nonneg (fun a ha => hc a (List.mem_cons_of_mem it ha))
    have hcond : tc + it.cost ≤ budget := by
      simp only [costSum_cons] at h; omega
    have hih : (tc + it.cost) + costSum rest ≤ budget := by
      simp only [costSum_cons] at h; omega
    simp only [walk, if_pos hcond]
    rw [ih (tc + it.cost) (fun a ha => hc a (List.mem_cons_of_mem it ha)) hih]

lemma walk_empty (budget : Int) (hb : budget ≤ 0) :
    ∀ (t : List Item) (tc : Int), (∀ it ∈ t, 0 < it.cost) → 0 ≤ tc →
      walk budget t tc = [] := by
  intro t
  induction t with
  | nil => intro tc _ _; simp [walk]
  | cons it rest ih =>
    intro tc hc htc
    have hcost : 0 < it.cost := hc it (List.mem_cons_self it rest)
    have hcond : ¬ tc + it.cost ≤ budget := by omega
    simp only [walk, if_neg hcond]
    exact ih tc (fun a ha => hc a (List.mem_cons_of_mem it ha)) htc

@[simp] lemma dpFrom_nil (dp : Nat → Int) : dpFrom dp [] = dp := rfl

lemma dpFrom_cons (dp : Nat → Int) (it : Item) (l : List Item) :
    dpFrom dp (it :: l) = dpFrom (dpStep it dp) l := rfl

lemma dpAfter_concat (l : List Item) (it : Item) :
    dpAfter (l ++ [it]) = dpStep it (dpAfter l) := by
  simp [dpAfter, dpFrom, List.foldl_append]

lemma dpStep_ge (it : Item) (dp : Nat → Int) (w : Nat) :
    dp w ≤ dpStep it dp w := by
  unfold dpStep
  split
  · next h => exact le_of_lt h.2
  · exact le_refl _

lemma dpFrom_ge (l : List Item) : ∀ (dp : Nat → Int) (w : Nat),
    dp w ≤ dpFrom dp l w := by
  induction l with
  | nil => intro dp w; exact le_refl _
  | cons it rest ih =>
    intro dp w
    rw [dpFrom_cons]
    exact le_trans (dpStep_ge it dp w) (ih (dpStep it dp) w)

lemma dpAfter_nonneg (l : List Item) (w : Nat) : 0 ≤ dpAfter l w :=
  dpFrom_ge l (fun _ => 0) w

lemma dp_upper {s l : List Item} (hs : s <+ l) :
    ∀ (dp : Nat → Int) (w : Nat), ncostSum s ≤ w →
      dp (w - ncostSum s) + calSum s ≤ dpFrom dp l w := by
  induction hs with
  | slnil => intro dp w _; simp
  | cons a h ih =>
    intro dp w hw
    rw [dpFrom_cons]
    exact le_trans
      (add_le_add_right (dpStep_ge a dp (w - ncostSum _)) _)
      (ih (dpStep a dp) w hw)
  | @cons₂ s₁ l₂ a h ih =>
    intro dp w hw
    rw [dpFrom_cons]
    simp only [ncostSum_cons, calSum_cons] at hw ⊢
    have hw1 : ncostSum s₁ ≤ w := by omega
    have h1 := ih (dpStep a dp) w hw1
    have h2 : dp (w - (a.cost.toNat + ncostSum s₁)) + a.calories ≤
        dpStep a dp (w - ncostSum s₁) := by
      have hna : a.cost.toNat ≤ w - ncostSum s₁ := by omega
      have harg : w - ncostSum s₁ - a.cost.toNat
          = w - (a.cost.toNat + ncostSum s₁) := by omega
      unfold dpStep
      split
      · next hcond => rw [harg]
      · next hcond =>
        have hle : dp (w - ncostSum s₁ - a.cost.toNat) + a.calories ≤
            dp (w - ncostSum s₁) :=
          not_lt.mp (fun hl => hcond ⟨hna, hl⟩)
        rw [harg] at hle
        exact hle
    calc dp (w - (a.cost.toNat + ncostSum s₁)) + (a.calories + calSum s₁)
        = (dp (w - (a.cost.toNat + ncostSum s₁)) + a.calories) + calSum s₁ := by
          ring
      _ ≤ dpStep a dp (w - ncostSum s₁) + calSum s₁ := add_le_add_right h2 _
      _ ≤ dpFrom (dpStep a dp) l₂ w := h1

lemma calSum_le_dpAfter {s l : List Item} (hs : s <+ l) (w : Nat)
    (hw : ncostSum s ≤ w) : calSum s ≤ dpAfter l w := by
  have h := dp_upper hs (fun _ => 0) w hw
  simpa [dpAfter] using h

lemma reconRev_sublist : ∀ (rl : List Item) (w : Nat), reconRev rl w <+ rl := by
  intro rl
  induction rl with
  | nil => intro w; simp [reconRev]
  | cons it rest ih =>
    intro w
    simp only [reconRev]
    split
    · exact (ih _).cons₂ it
    · exact (ih w).cons it

lemma reconRev_ncost : ∀ (rl : List Item) (w : Nat),
    ncostSum (reconRev rl w) ≤ w := by
  intro rl
  induction rl with
  | nil => intro w; simp [reconRev]
  | cons it rest ih =>
    intro w
    simp only [reconRev]
    split
    · next hcond =>
      have h1 := ih (w - it.cost.toNat)
      simp only [ncostSum_cons]
      omega
    · exact ih w

lemma reconRev_cal : ∀ (rl : List Item) (w : Nat),
    calSum (reconRev rl w) = dpAfter rl.reverse w := by
  intro rl
  induction rl with
  | nil => intro w; simp [reconRev, dpAfter, dpFrom]
  | cons it rest ih =>
    intro w
    rw [List.reverse_cons, dpAfter_concat]
    simp only [reconRev, dpStep]
    split
    · next hcond =>
      rw [calSum_cons, ih (w - it.cost.toNat)]
      ring
    · exact ih w

lemma dpChosen_sublist (l : List Item) (B : Nat) : dpChosen l B <+ l := by
  have h := (reconRev_sublist l.reverse B).reverse
  rwa [List.reverse_reverse] at h

lemma dpChosen_ncost (l : List Item) (B : Nat) :
    ncostSum (dpChosen l B) ≤ B := by
  rw [dpChosen, ncostSum_reverse]
  exact reconRev_ncost l.reverse B

lemma dpChosen_cal (l : List Item) (B : Nat) :
    calSum (dpChosen l B) = dpAfter l B := by
  rw [dpChosen, calSum_reverse, reconRev_cal, List.reverse_reverse]

lemma dpChosen_cost_le {l : List Item} (B : Nat)
    (hc : ∀ it ∈ l, 0 ≤ it.cost) : costSum (dpChosen l B) ≤ (B : Int) := by
  have hmem : ∀ it ∈ dpChosen l B, 0 ≤ it.cost :=
    fun it hit => hc it ((dpChosen_sublist l B).subset hit)
  have h := dpChosen_ncost l B
  have hcast := ncostSum_cast hmem
  have h2 : (ncostSum (dpChosen l B) : Int) ≤ (B : Int) := by exact_mod_cast h
  rwa [hcast] at h2

lemma dp_ok {l : List Item} {budget : Int} (hb : 0 ≤ budget)
    (hc : ∀ it ∈ l, 0 ≤ it.cost) :
    dynamic_programming l budget = Except.ok (dpRun l budget.toNat) := by
  have h1 : ¬ (0 ≤ budget ∧ l.any (fun it => decide (it.cost < 0)) = true) := by
    rintro ⟨-, hany⟩
    obtain ⟨it, hit, hdec⟩ := List.any_eq_true.mp hany
    have h := of_decide_eq_true hdec
    have := hc it hit
    omega
  have h2 : ¬ (budget < 0 ∧ l ≠ []) := by
    rintro ⟨h, -⟩
    omega
  rw [dynamic_programming, if_neg h1, if_neg h2]

lemma le_foldl_max_init (xs : List Int) : ∀ a : Int, a ≤ xs.foldl max a := by
  induction xs with
  | nil => intro a; exact le_refl a
  | cons x xs ih =>
    intro a
    exact le_trans (le_max_left a x) (ih (max a x))

lemma le_foldl_max_mem {x : Int} {xs : List Int} (hx : x ∈ xs) :
    ∀ a : Int, x ≤ xs.foldl max a := by
  induction xs with
  | nil => cases hx
  | cons y ys ih =>
    intro a
    rcases List.mem_cons.mp hx with rfl | hmem
    · exact le_trans (le_max_right a x) (le_foldl_max_init ys (max a x))
    · exact ih hmem (max a y)

lemma foldl_max_le {xs : List Int} {b : Int} (hxs : ∀ x ∈ xs, x ≤ b) :
    ∀ a : Int, a ≤ b → xs.foldl max a ≤ b := by
  induction xs with
  | nil => intro a ha; exact ha
  | cons x xs ih =>
    intro a ha
    exact ih (fun y hy => hxs y (List.mem_cons_of_mem x hy)) (max a x)
      (max_le ha (hxs x (List.mem_cons_self x xs)))

lemma dpAfter_eq_best {l : List Item} {budget : Int} (hb : 0 ≤ budget)
    (hc : ∀ it ∈ l, 0 ≤ it.cost) :
    dpAfter l budget.toNat = bestBenefit l budget := by
  have hBi : (budget.toNat : Int) = budget := Int.toNat_of_nonneg hb
  apply Int.le_antisymm
  · have hsub := dpChosen_sublist l budget.toNat
    have hcost : costSum (dpChosen l budget.toNat) ≤ budget := by
      have h := dpChosen_cost_le budget.toNat hc
      rwa [hBi] at h
    have hmem : calSum (dpChosen l budget.toNat) ∈
        ((l.sublists.filter (fun s => decide (costSum s ≤ budget))).map
          calSum) :=
      List.mem_map.mpr ⟨_, List.mem_filter.mpr
        ⟨List.mem_sublists.mpr hsub, by simpa using hcost⟩, rfl⟩
    calc dpAfter l budget.toNat
        = calSum (dpChosen l budget.toNat) := (dpChosen_cal l budget.toNat).symm
      _ ≤ bestBenefit l budget := le_foldl_max_mem hmem 0
  · apply foldl_max_le _ 0 (dpAfter_nonneg l budget.toNat)
    intro x hx
    obtain ⟨s, hsf, rfl⟩ := List.mem_map.mp hx
    obtain ⟨hsl, hcostb⟩ := List.mem_filter.mp hsf
    have hs : s <+ l := List.mem_sublists.mp hsl
    have hcosts : costSum s ≤ budget := of_decide_eq_true hcostb
    have hns : ncostSum s ≤ budget.toNat := by
      have hcast := ncostSum_cast (fun it hit => hc it (hs.subset hit))
      have h2 : (ncostSum s : Int) ≤ (budget.toNat : Int) := by
        rw [hcast, hBi]; exact hcosts
      exact_mod_cast h2
    exact calSum_le_dpAfter hs budget.toNat hns

lemma reconRev_zero {rl : List Item} (h : ∀ it ∈ rl, 0 < it.cost) :
    reconRev rl 0 = [] := by
  induction rl with
  | nil => simp [reconRev]
  | cons it rest ih =>
    have hcost := h it (List.mem_cons_self it rest)
    have hcond : ¬ (it.cost.toNat ≤ 0 ∧
        dpAfter rest.reverse 0 <
          dpAfter rest.reverse (0 - it.cost.toNat) + it.calories) := by
      rintro ⟨h1, -⟩
      omega
    simp only [reconRev, if_neg hcond]
    exact ih (fun a ha => h a (List.mem_cons_of_mem it ha))

lemma dpAfter_full {rl : List Item}
    (h : ∀ it ∈ rl, 0 ≤ it.cost ∧ 0 < it.calories) :
    ∀ w : Nat, ncostSum rl ≤ w → dpAfter rl.reverse w = calSum rl := by
  induction rl with
  | nil => intro w _; simp [dpAfter, dpFrom]
  | cons it rest ih =>
    intro w hw
    have hrest := fun a ha => h a (List.mem_cons_of_mem it ha)
    have hit := h it (List.mem_cons_self it rest)
    simp only [ncostSum_cons] at hw
    have hw1 : ncostSum rest ≤ w - it.cost.toNat := by omega
    have hw2 : ncostSum rest ≤ w := by omega
    have hcond : it.cost.toNat ≤ w := by omega
    rw [List.reverse_cons, dpAfter_concat]
    simp only [dpStep]
    rw [ih hrest (w - it.cost.toNat) hw1, ih hrest w hw2,
      if_pos ⟨hcond, by linarith [hit.2]⟩, calSum_cons]
    ring

lemma reconRev_full {rl : List Item}
    (h : ∀ it ∈ rl, 0 ≤ it.cost ∧ 0 < it.calories) :
    ∀ w : Nat, ncostSum rl ≤ w → reconRev rl w = rl := by
  induction rl with
  | nil => intro w _; simp [reconRev]
  | cons it rest ih =>
    intro w hw
    have hrest := fun a ha => h a (List.mem_cons_of_mem it ha)
    have hit := h it (List.mem_cons_self it rest)
    simp only [ncostSum_cons] at hw
    have hw1 : ncostSum rest ≤ w - it.cost.toNat := by omega
    have hw2 : ncostSum rest ≤ w := by omega
    have hcond : it.cost.toNat ≤ w := by omega
    simp only [reconRev]
    rw [dpAfter_full hrest (w - it.cost.toNat) hw1, dpAfter_full hrest w hw2,
      if_pos ⟨hcond, by linarith [hit.2]⟩, ih hrest (w - it.cost.toNat) hw1]

lemma scoredOf_sublist (l : List Item) : scoredOf l <+ l :=
  List.filter_sublist l

lemma scoredOf_pos {l : List Item} {it : Item} (h : it ∈ scoredOf l) :
    0 < it.cost := by
  rw [scoredOf, List.mem_filter] at h
  exact of_decide_eq_true h.2

lemma scoredOf_mem {l : List Item} {it : Item} (h : it ∈ scoredOf l) :
    it ∈ l :=
  List.mem_of_mem_filter h

lemma ncostSum_le_toNat {l : List Item} {budget : Int}
    (hc : ∀ it ∈ l, 0 ≤ it.cost) (h : costSum l ≤ budget) :
    ncostSum l ≤ budget.toNat := by
  have hcast := ncostSum_cast hc
  omega

lemma greedy_cost_le (l : List Item) (budget : Int) (hb : 0 ≤ budget) :
    costSum (walk budget (sortByRatio (scoredOf l)) 0) ≤ budget := by
  have h := walk_cost_le budget (sortByRatio (scoredOf l)) 0 hb
  linarith

/-- C1: for a catalog of non-negative costs and benefits and a non-negative
budget, the dp selector succeeds and its total_calories equals the best
benefit over all sublists of the catalog of cost within budget. -/
theorem dp_total_benefit_optimal (l : List Item) (budget : Int)
    (hb : 0 ≤ budget) (hc : ∀ it ∈ l, 0 ≤ it.cost)
    (_hv : ∀ it ∈ l, 0 ≤ it.calories) :
    ∃ r, dynamic_programming l budget = Except.ok r ∧
      r.total_calories = bestBenefit l budget := by
  refine ⟨dpRun l budget.toNat, dp_ok hb hc, ?_⟩
  show calSum (dpChosen l budget.toNat) = bestBenefit l budget
  rw [dpChosen_cal]
  exact dpAfter_eq_best hb hc

/-- C1 witness at a concrete catalog and budget. -/
theorem dp_total_benefit_optimal_witness :
    (0 : Int) ≤ 2 ∧
    ∃ r, dynamic_programming [⟨"a", 2, 3⟩, ⟨"b", 1, 2⟩] 2 = Except.ok r ∧
      r.total_calories = bestBenefit [⟨"a", 2, 3⟩, ⟨"b", 1, 2⟩] 2 :=
  ⟨by decide, dp_total_benefit_optimal [⟨"a", 2, 3⟩, ⟨"b", 1, 2⟩] 2
    (by decide) (by decide) (by decide)⟩

/-- C2: on the same catalog (non-negative costs) and non-negative budget,
the dp selector succeeds and its total_calories is at least the greedy
selector's. -/
theorem exact_dominates_greedy (l : List Item) (budget : Int)
    (hb : 0 ≤ budget) (hc : ∀ it ∈ l, 0 ≤ it.cost) :
    ∃ r, dynamic_programming l budget = Except.ok r ∧
      (greedy_algorithm l budget).total_calories ≤ r.total_calories := by
  refine ⟨dpRun l budget.toNat, dp_ok hb hc, ?_⟩
  show (greedy_algorithm l budget).total_calories ≤
    calSum (dpChosen l budget.toNat)
  rw [dpChosen_cal]
  have hsp : walk budget (sortByRatio (scoredOf l)) 0 <+~ l :=
    (((walk_sublist budget (sortByRatio (scoredOf l)) 0).subperm.trans
        (sortByRatio_perm (scoredOf l)).subperm).trans
      (scoredOf_sublist l).subperm)
  obtain ⟨g, hgp, hgs⟩ := hsp
  have hgcost : costSum g ≤ budget := by
    rw [costSum_perm hgp]
    exact greedy_cost_le l budget hb
  have hns : ncostSum g ≤ budget.toNat :=
    ncostSum_le_toNat (fun it hit => hc it (hgs.subset hit)) hgcost
  have hle := calSum_le_dpAfter hgs budget.toNat hns
  rw [calSum_perm hgp] at hle
  simpa [greedy_algorithm] using hle

/-- C2 witness at a concrete catalog and budget. -/
theorem exact_dominates_greedy_witness :
    (0 : Int) ≤ 12 ∧
    ∃ r, dynamic_programming
        [⟨"a", 10, 100⟩, ⟨"b", 6, 30⟩, ⟨"c", 6, 30⟩] 12 = Except.ok r ∧
      (greedy_algorithm [⟨"a", 10, 100⟩, ⟨"b", 6, 30⟩, ⟨"c", 6, 30⟩]
          12).total_calories ≤ r.total_calories :=
  ⟨by decide, exact_dominates_greedy
    [⟨"a", 10, 100⟩, ⟨"b", 6, 30⟩, ⟨"c", 6, 30⟩] 12 (by decide) (by decide)⟩

/-- C3: with a non-negative budget both selectors keep total_cost within the
budget (the dp selector succeeding on a catalog of non-negative costs). -/
theorem budget_bound_both (l : List Item) (budget : Int)
    (hb : 0 ≤ budget) (hc : ∀ it ∈ l, 0 ≤ it.cost) :
    (greedy_algorithm l budget).total_cost ≤ budget ∧
    ∃ r, dynamic_programming l budget = Except.ok r ∧
      r.total_cost ≤ budget := by
  constructor
  · show costSum (walk budget (sortByRatio (scoredOf l)) 0) ≤ budget
    exact greedy_cost_le l budget hb
  · refine ⟨dpRun l budget.toNat, dp_ok hb hc, ?_⟩
    show costSum (dpChosen l budget.toNat) ≤ budget
    have h := dpChosen_cost_le budget.toNat hc
    rwa [Int.toNat_of_nonneg hb] at h

/-- C3 witness at a concrete catalog and budget. -/
theorem budget_bound_both_witness :
    (0 : Int) ≤ 60 ∧
    ((greedy_algorithm [⟨"pizza", 50, 300⟩, ⟨"cola", 15, 220⟩]
        60).total_cost ≤ 60 ∧
     ∃ r, dynamic_programming [⟨"pizza", 50, 300⟩, ⟨"cola", 15, 220⟩] 60
        = Except.ok r ∧ r.total_cost ≤ 60) :=
  ⟨by decide, budget_bound_both [⟨"pizza", 50, 300⟩, ⟨"cola", 15, 220⟩] 60
    (by decide) (by decide)⟩

/-- C4 counterexample: on the empty catalog with budget -1 the dp selector
does not fail at all; it returns the empty result, so a negative budget is
not always rejected. -/
theorem dp_negative_budget_empty_catalog_ok :
    dynamic_programming [] (-1) = Except.ok ⟨[], 0, 0⟩ := by rfl

/-- C4 amended: for a NONEMPTY catalog and a negative budget the dp
selector fails, but with an IndexError raised inside the reconstruction
loop (after dp and keep are allocated), not with a dedicated InvalidBudget
error; the empty catalog returns the empty result instead of failing. -/
theorem dp_negative_budget_nonempty_fails (l : List Item) (budget : Int)
    (hl : l ≠ []) (hb : budget < 0) :
    dynamic_programming l budget = Except.error PyErr.indexError := by
  have h1 : ¬ (0 ≤ budget ∧ l.any (fun it => decide (it.cost < 0)) = true) := by
    rintro ⟨h, -⟩
    omega
  rw [dynamic_programming, if_neg h1, if_pos ⟨hb, hl⟩]

/-- C4 witness at a concrete nonempty catalog and negative budget. -/
theorem dp_negative_budget_nonempty_fails_witness :
    dynamic_programming [⟨"pizza", 50, 300⟩] (-1)
      = Except.error PyErr.indexError :=
  dp_negative_budget_nonempty_fails [⟨"pizza", 50, 300⟩] (-1)
    (by decide) (by decide)

/-- C5 counterexample: the greedy selector lists chosen names in the order
the packing pass discovered them (ratio descending), not in catalog
insertion order: with A before B in the catalog and both chosen, the
result lists B first. -/
theorem greedy_items_discovery_order_cex :
    (greedy_algorithm [⟨"A", 10, 100⟩, ⟨"B", 10, 200⟩] 20).items
      = ["B", "A"] ∧ (["B", "A"] : List String) ≠ ["A", "B"] :=
  ⟨by rfl, by decide⟩

/-- C5 amended: the dp selector's items are in catalog insertion order (a
sublist of the catalog's name sequence), while the greedy selector's items
follow the ratio-sorted consideration order. -/
theorem selector_items_order (l : List Item) (budget : Int)
    (hb : 0 ≤ budget) (hc : ∀ it ∈ l, 0 ≤ it.cost) :
    (∃ r, dynamic_programming l budget = Except.ok r ∧
      r.items <+ l.map Item.name) ∧
    (greedy_algorithm l budget).items
      <+ (sortByRatio (scoredOf l)).map Item.name := by
  constructor
  · refine ⟨dpRun l budget.toNat, dp_ok hb hc, ?_⟩
    show (dpChosen l budget.toNat).map Item.name <+ l.map Item.name
    exact (dpChosen_sublist l budget.toNat).map Item.name
  · show (walk budget (sortByRatio (scoredOf l)) 0).map Item.name
      <+ (sortByRatio (scoredOf l)).map Item.name
    exact (walk_sublist budget (sortByRatio (scoredOf l)) 0).map Item.name

/-- C5 amended witness at a concrete catalog and budget. -/
theorem selector_items_order_witness :
    (∃ r, dynamic_programming [⟨"A", 10, 100⟩, ⟨"B", 10, 200⟩] 20
        = Except.ok r ∧
      r.items <+ ([⟨"A", 10, 100⟩, ⟨"B", 10, 200⟩] : List Item).map
        Item.name) ∧
    (greedy_algorithm [⟨"A", 10, 100⟩, ⟨"B", 10, 200⟩] 20).items
      <+ (sortByRatio (scoredOf [⟨"A", 10, 100⟩, ⟨"B", 10, 200⟩])).map
        Item.name :=
  selector_items_order [⟨"A", 10, 100⟩, ⟨"B", 10, 200⟩] 20
    (by decide) (by decide)

/-- C6 counterexample: a zero-cost zero-calorie item defeats full-budget
saturation for both selectors: at budget 0 (which covers the total cost 0)
greedy filters the item out and the dp never keeps it, so neither returns
the entire catalog. -/
theorem full_budget_zero_item_cex :
    costSum [⟨"z", 0, 0⟩] ≤ (0 : Int) ∧
    (greedy_algorithm [⟨"z", 0, 0⟩] 0).items = [] ∧
    dynamic_programming [⟨"z", 0, 0⟩] 0 = Except.ok ⟨[], 0, 0⟩ ∧
    ([⟨"z", 0, 0⟩] : List Item).map Item.name = ["z"] :=
  ⟨by decide, by rfl, by rfl, by rfl⟩

/-- C6 amended: when every item has positive cost and positive calories
and the budget covers the total cost, the greedy selector takes all items
(listed in ratio order) and the dp selector returns the entire catalog in
insertion order, both with totals equal to the full sums. -/
theorem full_budget_saturation_pos (l : List Item) (budget : Int)
    (hpos : ∀ it ∈ l, 0 < it.cost ∧ 0 < it.calories)
    (hb : costSum l ≤ budget) :
    ((greedy_algorithm l budget).items.Perm (l.map Item.name) ∧
     (greedy_algorithm l budget).total_cost = costSum l ∧
     (greedy_algorithm l budget).total_calories = calSum l) ∧
    ∃ r, dynamic_programming l budget = Except.ok r ∧
      r.items = l.map Item.name ∧ r.total_cost = costSum l ∧
      r.total_calories = calSum l := by
  have hc : ∀ it ∈ l, 0 ≤ it.cost := fun it hit => le_of_lt (hpos it hit).1
  have hb0 : 0 ≤ budget := le_trans (costSum_nonneg hc) hb
  have hscored : scoredOf l = l := by
    rw [scoredOf]
    exact List.filter_eq_self.mpr
      (fun a ha => decide_eq_true (hpos a ha).1)
  have hsp : (sortByRatio (scoredOf l)).Perm l := by
    rw [hscored]
    exact sortByRatio_perm l
  have hcost_sorted : costSum (sortByRatio (scoredOf l)) = costSum l :=
    costSum_perm hsp
  have hwalk : walk budget (sortByRatio (scoredOf l)) 0
      = sortByRatio (scoredOf l) := by
    apply walk_all budget (sortByRatio (scoredOf l)) 0
      (fun it hit => hc it (hsp.subset hit))
    rw [hcost_sorted]
    linarith
  constructor
  · refine ⟨?_, ?_, ?_⟩
    · show (walk budget (sortByRatio (scoredOf l)) 0).map Item.name ~
        l.map Item.name
      rw [hwalk]
      exact hsp.map Item.name
    · show costSum (walk budget (sortByRatio (scoredOf l)) 0) = costSum l
      rw [hwalk, hcost_sorted]
    · show calSum (walk budget (sortByRatio (scoredOf l)) 0) = calSum l
      rw [hwalk]
      exact calSum_perm hsp
  · refine ⟨dpRun l budget.toNat, dp_ok hb0 hc, ?_, ?_, ?_⟩
    all_goals
      have hrev : ∀ it ∈ l.reverse, 0 ≤ it.cost ∧ 0 < it.calories :=
        fun it hit =>
          ⟨hc it (List.mem_reverse.mp hit),
           (hpos it (List.mem_reverse.mp hit)).2⟩
      have hw : ncostSum l.reverse ≤ budget.toNat := by
        rw [ncostSum_reverse]
        exact ncostSum_le_toNat hc hb
      have hchosen : dpChosen l budget.toNat = l := by
        rw [dpChosen, reconRev_full hrev budget.toNat hw,
          List.reverse_reverse]
    · show (dpChosen l budget.toNat).map Item.name = l.map Item.name
      rw [hchosen]
    · show costSum (dpChosen l budget.toNat) = costSum l
      rw [hchosen]
    · show calSum (dpChosen l budget.toNat) = calSum l
      rw [hchosen]

/-- C6 amended witness at a concrete catalog and budget. -/
theorem full_budget_saturation_pos_witness :
    (((greedy_algorithm [⟨"a", 2, 3⟩, ⟨"b", 1, 2⟩] 3).items.Perm
        (([⟨"a", 2, 3⟩, ⟨"b", 1, 2⟩] : List Item).map Item.name) ∧
      (greedy_algorithm [⟨"a", 2, 3⟩, ⟨"b", 1, 2⟩] 3).total_cost
        = costSum [⟨"a", 2, 3⟩, ⟨"b", 1, 2⟩] ∧
      (greedy_algorithm [⟨"a", 2, 3⟩, ⟨"b", 1, 2⟩] 3).total_calories
        = calSum [⟨"a", 2, 3⟩, ⟨"b", 1, 2⟩]) ∧
     ∃ r, dynamic_programming [⟨"a", 2, 3⟩, ⟨"b", 1, 2⟩] 3 = Except.ok r ∧
       r.items = ([⟨"a", 2, 3⟩, ⟨"b", 1, 2⟩] : List Item).map Item.name ∧
       r.total_cost = costSum [⟨"a", 2, 3⟩, ⟨"b", 1, 2⟩] ∧
       r.total_calories = calSum [⟨"a", 2, 3⟩, ⟨"b", 1, 2⟩]) :=
  full_budget_saturation_pos [⟨"a", 2, 3⟩, ⟨"b", 1, 2⟩] 3
    (by decide) (by decide)

/-- C7 counterexample: at budget zero a zero-cost item with positive
calories IS selected by the dp selector, so the zero-budget boundary does
not return the empty result on every catalog. -/
theorem dp_zero_budget_free_item_cex :
    dynamic_programming [⟨"z", 0, 7⟩] 0 = Except.ok ⟨["z"], 0, 7⟩ ∧
    (Except.ok (⟨["z"], 0, 7⟩ : SelectionResult) :
      Except PyErr SelectionResult) ≠ Except.ok ⟨[], 0, 0⟩ := by
  refine ⟨by rfl, ?_⟩
  simp

/-- C7 amended: with every item of positive cost, budget zero gives the
empty zero-total result from both selectors; and on the empty catalog any
non-negative budget gives the empty zero-total result from both. -/
theorem zero_budget_or_empty_amended (l : List Item) (budget : Int)
    (hpos : ∀ it ∈ l, 0 < it.cost) (hb : 0 ≤ budget) :
    greedy_algorithm l 0 = ⟨[], 0, 0⟩ ∧
    dynamic_programming l 0 = Except.ok ⟨[], 0, 0⟩ ∧
    greedy_algorithm [] budget = ⟨[], 0, 0⟩ ∧
    dynamic_programming [] budget = Except.ok ⟨[], 0, 0⟩ := by
  have hc : ∀ it ∈ l, 0 ≤ it.cost := fun it hit => le_of_lt (hpos it hit)
  refine ⟨?_, ?_, ?_, ?_⟩
  · have hwalk : walk 0 (sortByRatio (scoredOf l)) 0 = [] :=
      walk_empty 0 (le_refl 0) (sortByRatio (scoredOf l)) 0
        (fun it hit =>
          scoredOf_pos ((sortByRatio_perm (scoredOf l)).subset hit))
        (le_refl 0)
    rw [greedy_algorithm, hwalk]
    rfl
  · have h0 : (0 : Int) ≤ 0 := le_refl 0
    rw [dp_ok h0 hc]
    have hchosen : dpChosen l (Int.toNat 0) = [] := by
      rw [dpChosen, Int.toNat_zero, reconRev_zero
        (fun it hit => hpos it (List.mem_reverse.mp hit))]
      rfl
    rw [dpRun, hchosen]
    rfl
  · rfl
  · rw [dp_ok hb (fun it hit => absurd hit (List.not_mem_nil it))]
    rfl

/-- C7 amended witness at a concrete catalog and budget. -/
theorem zero_budget_or_empty_amended_witness :
    greedy_algorithm [⟨"a", 1, 5⟩] 0 = ⟨[], 0, 0⟩ ∧
    dynamic_programming [⟨"a", 1, 5⟩] 0 = Except.ok ⟨[], 0, 0⟩ ∧
    greedy_algorithm [] 3 = ⟨[], 0, 0⟩ ∧
    dynamic_programming [] 3 = Except.ok ⟨[], 0, 0⟩ :=
  zero_budget_or_empty_amended [⟨"a", 1, 5⟩] 3 (by decide) (by decide)

/-- C8: two scored items with exactly equal benefit-to-cost ratios (stated
by cross-multiplication, both costs being positive on the scored list)
keep their catalog insertion order in the ratio-descending sort that the
packing pass walks. -/
theorem greedy_sort_tie_stable (l : List Item) (x y : Item)
    (hsub : [x, y] <+ scoredOf l)
    (htie : x.calories * y.cost = y.calories * x.cost) :
    [x, y] <+ sortByRatio (scoredOf l) :=
  sortByRatio_stable hsub
    (by rw [ratioGE]; exact decide_eq_true htie.symm.le)

/-- C8 witness: two items of equal ratio 2 in insertion order. -/
theorem greedy_sort_tie_stable_witness :
    [(⟨"a", 2, 4⟩ : Item), ⟨"b", 1, 2⟩]
      <+ sortByRatio (scoredOf [⟨"a", 2, 4⟩, ⟨"b", 1, 2⟩]) :=
  greedy_sort_tie_stable [⟨"a", 2, 4⟩, ⟨"b", 1, 2⟩] ⟨"a", 2, 4⟩ ⟨"b", 1, 2⟩
    (by rw [scoredOf]; exact List.Sublist.refl _) (by decide)

/-- C9: every name returned by the greedy selector comes from the scored
list, i.e. from an item of positive cost: items with cost at most 0 are
skipped before any ratio is computed and never selected (the selector
itself is a total function, so no input makes it fail). -/
theorem greedy_skips_nonpositive_cost (l : List Item) (budget : Int) :
    ∀ nm ∈ (greedy_algorithm l budget).items,
      nm ∈ (scoredOf l).map Item.name := by
  intro nm hnm
  have hnm2 : nm ∈ (walk budget (sortByRatio (scoredOf l)) 0).map Item.name :=
    hnm
  obtain ⟨it, hit, rfl⟩ := List.mem_map.mp hnm2
  have h1 : it ∈ sortByRatio (scoredOf l) :=
    (walk_sublist budget (sortByRatio (scoredOf l)) 0).subset hit
  have h2 : it ∈ scoredOf l := (sortByRatio_perm (scoredOf l)).subset h1
  exact List.mem_map.mpr ⟨it, h2, rfl⟩

/-- C9 witness: a catalog with a zero-cost item; the chosen name comes
from the positive-cost part. -/
theorem greedy_skips_nonpositive_cost_witness :
    "x" ∈ (greedy_algorithm [⟨"free", 0, 100⟩, ⟨"x", 1, 5⟩] 10).items ∧
    "x" ∈ (scoredOf [⟨"free", 0, 100⟩, ⟨"x", 1, 5⟩]).map Item.name :=
  ⟨by decide, greedy_skips_nonpositive_cost
    [⟨"free", 0, 100⟩, ⟨"x", 1, 5⟩] 10 "x" (by decide)⟩

/-- C10: with a negative budget the greedy selector returns the empty
result with zero totals, without failing: no positive-cost item ever fits
below a negative budget. -/
theorem greedy_negative_budget_empty (l : List Item) (budget : Int)
    (hb : budget < 0) : greedy_algorithm l budget = ⟨[], 0, 0⟩ := by
  have hwalk : walk budget (sortByRatio (scoredOf l)) 0 = [] :=
    walk_empty budget (le_of_lt hb) (sortByRatio (scoredOf l)) 0
      (fun it hit =>
        scoredOf_pos ((sortByRatio_perm (scoredOf l)).subset hit))
      (le_refl 0)
  rw [greedy_algorithm, hwalk]
  rfl

/-- C10 witness at a concrete catalog and budget -1. -/
theorem greedy_negative_budget_empty_witness :
    greedy_algorithm [⟨"a", 2, 3⟩] (-1) = ⟨[], 0, 0⟩ :=
  greedy_negative_budget_empty [⟨"a", 2, 3⟩] (-1) (by decide)
